import Mathlib

/-!
Shallow embedding of the moried storage core (src/src/main.rs).

The program is a git-backed note store.  We embed the storage-relevant
behaviour of its handlers:

* blobs, trees and commits are content-addressed objects.  Blob and tree
  identifiers are indices into content-addressed arenas (looking up the
  content first, appending only when absent, mirrors git's property that
  identical content yields the same object id).  Commit objects are
  appended with fresh ids; since every new commit references the current
  HEAD as parent, its content always differs from existing commits, so a
  fresh id is faithful to git's content addressing here.
* a git `Index` (the flattened path to (blob id, mode) mapping read from
  the HEAD tree by `Index::read_tree` and written back by
  `Index::write_tree_to`) is modelled as a list of entries with unique
  path keys; `Index::add` replaces any entry with the same path.
* the handlers `save_note` (both its `Save` and `Rename` bodies),
  `delete_note`, `load_note`, `upload_file` and `list_notes` are
  translated as functions on the repository state.
* the YAML front-matter extraction in `list_notes` (main.rs lines
  236-268) is modelled byte-exactly, including the `windows(5)` scan for
  the closing delimiter and the `content[4..j]` slice, whose Rust
  out-of-bounds panic is modelled by returning `none` at the outer level.
  The external library functions (UTF-8 validation from `std` and
  `serde_yaml::from_str`) are parameters of the embedding.
-/

namespace Moried

/-- Byte strings (blob contents, a byte is a `Nat` below 256). -/
abbrev Bytes := List Nat

/-- One flattened index entry: (path, blob id, file mode).
Mirrors the fields of `git2::IndexEntry` actually used by the program. -/
abbrev Entry := String × Nat × Nat

/-- A flattened tree: the path-keyed entry list an `Index` holds after
`read_tree`, and what `write_tree_to` serializes. -/
abbrev Tree := List Entry

/-- A commit object: tree id, parent ids, message.  The program always
passes exactly one parent (`&[&head_commit]`). -/
structure CommitObj where
  tree : Nat
  parents : List Nat
  message : String
deriving DecidableEq

instance : Inhabited CommitObj := ⟨⟨0, [], ""⟩⟩

/-- The repository state: content-addressed blob and tree arenas, the
commit log (id = position), and the HEAD commit id. -/
structure Repo where
  blobs : List Bytes
  trees : List Tree
  commits : List CommitObj
  head : Nat
deriving DecidableEq

/-- First position of `x` in `l`, if any. -/
def idxOf {α : Type} [DecidableEq α] : List α → α → Option Nat
  | [], _ => none
  | y :: ys, x => if y = x then some 0 else (idxOf ys x).map (· + 1)

/-- Content-addressed blob write (`Repository::blob` / `blob_writer`):
identical bytes yield the identical id; new content is appended. -/
def putBlob (bs : List Bytes) (c : Bytes) : Nat × List Bytes :=
  match idxOf bs c with
  | some i => (i, bs)
  | none => (bs.length, bs ++ [c])

/-- Content-addressed tree write (`Index::write_tree_to`): writing an
unchanged index yields the id of the already stored tree. -/
def putTree (ts : List Tree) (t : Tree) : Nat × List Tree :=
  match idxOf ts t with
  | some i => (i, ts)
  | none => (ts.length, ts ++ [t])

/-- The commit object HEAD points at. -/
def headCommit (r : Repo) : CommitObj := r.commits.getD r.head default

/-- The flattened index read from HEAD's tree (`head.peel_to_tree()`
followed by `Index::read_tree`). -/
def headIndex (r : Repo) : Tree := r.trees.getD (headCommit r).tree []

/-- `index.iter().find(|entry| entry.path == path)`. -/
def findPath (idx : Tree) (p : String) : Option Entry :=
  idx.find? (fun e => e.1 = p)

/-- `Index::add`: inserts the entry, replacing any entry at the same
path (git index keys are unique per stage; order is not modelled). -/
def indexAdd (idx : Tree) (e : Entry) : Tree :=
  idx.filter (fun x => ¬ (x.1 = e.1)) ++ [e]

/-- `Index::remove(path, 0)`. -/
def indexRemove (idx : Tree) (p : String) : Tree :=
  idx.filter (fun x => ¬ (x.1 = p))

/-- `repo.commit(Some HEAD, sig, sig, message, tree, [head_commit])`
preceded by `write_tree_to`: store the mutated index as a tree, append
one commit whose sole parent is the current HEAD, move HEAD to it. -/
def commitWith (r : Repo) (idx : Tree) (msg : String) : Repo :=
  let pt := putTree r.trees idx
  { r with
    trees := pt.2
    commits := r.commits ++ [⟨pt.1, [r.head], msg⟩]
    head := r.commits.length }

/-- Regular-file mode `0o100644` used for every entry the program adds. -/
def regularMode : Nat := 33188

/-- Outcome of a path-addressed write verb. -/
inductive RRes where
  | ok
  | notFound
deriving DecidableEq

/-- `save_note`, `NoteSave::Save` arm (main.rs 321-361): write a blob
from the content, add it to the index read from HEAD, commit with the
caller-supplied message.  Never fails. -/
def saveNote (r : Repo) (p : String) (content : Bytes) (msg : String) : Repo :=
  let pb := putBlob r.blobs content
  let r1 := { r with blobs := pb.2 }
  commitWith r1 (indexAdd (headIndex r1) (p, pb.1, regularMode)) msg

/-- `save_note`, `NoteSave::Rename` arm (main.rs 362-408): look up the
source path in the index built from HEAD; absent means NotFound and no
state change; otherwise remove it and re-add the found entry (same blob
id, same mode) under the target path, then commit. -/
def renameNote (r : Repo) (fromP toP : String) : RRes × Repo :=
  match findPath (headIndex r) fromP with
  | none => (.notFound, r)
  | some e =>
    (.ok, commitWith r (indexAdd (indexRemove (headIndex r) fromP) (toP, e.2.1, e.2.2))
      ("Rename " ++ fromP ++ " to " ++ toP))

/-- `delete_note` (main.rs 412-456): look up the path; absent means
NotFound and no state change; otherwise remove it and commit. -/
def deleteNote (r : Repo) (p : String) : RRes × Repo :=
  match findPath (headIndex r) p with
  | none => (.notFound, r)
  | some _ =>
    (.ok, commitWith r (indexRemove (headIndex r) p) ("Delete " ++ p))

/-- `load_note` (main.rs 279-314): find the path in the index built from
HEAD, then fetch the blob; either lookup failing yields NotFound. -/
def loadNote (r : Repo) (p : String) : Option Bytes :=
  match findPath (headIndex r) p with
  | none => none
  | some e => r.blobs[e.2.1]?

/-- One iteration of the blob-writing loop of `upload_file`: write the
part's bytes as a blob and record (filename, blob id). -/
def uploadStep (acc : List (String × Nat) × List Bytes) (f : String × Bytes) :
    List (String × Nat) × List Bytes :=
  let pb := putBlob acc.2 f.2
  (acc.1 ++ [(f.1, pb.1)], pb.2)

/-- One iteration of the index-population loop of `upload_file`: add the
recorded (filename, blob id) pair as a regular-file entry. -/
def uploadAdd (ix : Tree) (pr : String × Nat) : Tree :=
  indexAdd ix (pr.1, pr.2, regularMode)

/-- `upload_file` (main.rs 495-568): write one blob per part, then add
every (filename, blob id) pair to the index read from HEAD and create a
single commit with message `Upload (n) files`. -/
def uploadFiles (r : Repo) (files : List (String × Bytes)) : Repo :=
  let written := files.foldl uploadStep ([], r.blobs)
  let r1 := { r with blobs := written.2 }
  let idx := written.1.foldl uploadAdd (headIndex r1)
  commitWith r1 idx ("Upload " ++ toString files.length ++ " files")

/-! ### Listing and front matter (`list_notes`, main.rs 209-277) -/

/-- Parsed metadata attached to a listing entry: either a successfully
parsed YAML document, or the synthetic one-key error mapping built from
the parse error message (main.rs 249-250).  `Y` is the type of parsed
YAML documents; the YAML library itself is external to the program. -/
inductive MetaVal (Y : Type) where
  | parsed : Y → MetaVal Y
  | errObj : String → MetaVal Y
deriving DecidableEq

/-- One entry of the notes listing (`models::ListEntry`). -/
structure ListEntry (Y : Type) where
  path : String
  metadata : Option (MetaVal Y)
deriving DecidableEq

/-- The opening front-matter delimiter: the 4 bytes of three dashes and
a newline. -/
def openDelim : Bytes := [45, 45, 45, 10]

/-- The 5-byte window of a closing delimiter: newline, three dashes,
newline. -/
def closeWin : Bytes := [10, 45, 45, 45, 10]

/-- `content.windows(5).position(|w| w == closeWin)`: index of the first
5-byte window equal to the closing delimiter, scanning from offset 0
(the scan may overlap the opening delimiter). -/
def findWin : Bytes → Option Nat
  | [] => none
  | b :: rest =>
    if (b :: rest).take 5 = closeWin then some 0 else (findWin rest).map (· + 1)

/-- The body of the front-matter block once sliced out: UTF-8 validation
(`std::str::from_utf8`, parameter `dec`; invalid UTF-8 gives no
metadata) followed by the YAML parse (`serde_yaml::from_str`, parameter
`par`; a parse error becomes the one-key error mapping). -/
def metaOfBlock {Y : Type} (dec : Bytes → Option String)
    (par : String → Except String Y) (block : Bytes) : Option (MetaVal Y) :=
  match dec block with
  | none => none
  | some s =>
    match par s with
    | .ok v => some (.parsed v)
    | .error e => some (.errObj e)

/-- Front-matter extraction for one blob (main.rs 236-268).  The outer
`Option` models Rust panics: the slice `content[4..j]` panics when
`j < 4`, which happens exactly when the closing-delimiter window is
found overlapping the opening delimiter. -/
def getMetadata {Y : Type} (dec : Bytes → Option String)
    (par : String → Except String Y) (c : Bytes) : Option (Option (MetaVal Y)) :=
  if c.take 4 = openDelim then
    match findWin c with
    | none => some none
    | some j =>
      if 4 ≤ j then some (metaOfBlock dec par ((c.drop 4).take (j - 4)))
      else none
  else some none

/-- The listing built from an index: one entry per index entry, with
front matter parsed from the entry's blob.  `none` models a panic
(either `find_blob(..).unwrap()` on an unknown id, or the slice panic
inside the front-matter scan). -/
def listingOf {Y : Type} (dec : Bytes → Option String)
    (par : String → Except String Y) (blobs : List Bytes) :
    Tree → Option (List (ListEntry Y))
  | [] => some []
  | e :: es =>
    match blobs[e.2.1]? with
    | none => none
    | some content =>
      match getMetadata dec par content with
      | none => none
      | some md =>
        match listingOf dec par blobs es with
        | none => none
        | some rest => some (⟨e.1, md⟩ :: rest)

/-- The full listing computed from HEAD's tree (the else-branch of
`list_notes`). -/
def computeListing {Y : Type} (dec : Bytes → Option String)
    (par : String → Except String Y) (r : Repo) : Option (List (ListEntry Y)) :=
  listingOf dec par r.blobs (headIndex r)

/-- The single cache slot (`models::Cached`): empty, or a listing tagged
with the commit id it was computed from. -/
def Cache (Y : Type) := Option (Nat × List (ListEntry Y))

/-- `Cached::get` (main.rs 654-672): the cached data is returned exactly
when the stored commit id equals the current HEAD commit id. -/
def cachedGet {Y : Type} (c : Cache Y) (r : Repo) : Option (List (ListEntry Y)) :=
  match c with
  | none => none
  | some (cid, d) => if cid = r.head then some d else none

/-- `list_notes` (main.rs 209-277): serve the cache when its slot is
valid for HEAD, otherwise compute the listing and store it tagged with
HEAD's commit id.  Returns the reply and the new cache slot; `none`
models a panic while computing the listing. -/
def listNotes {Y : Type} (dec : Bytes → Option String)
    (par : String → Except String Y) (r : Repo) (c : Cache Y) :
    Option (List (ListEntry Y) × Cache Y) :=
  match cachedGet c r with
  | some d => some (d, c)
  | none => (computeListing dec par r).map (fun es => (es, some (r.head, es)))

/-! ### Well-formedness of repository states -/

/-- Well-formed repository state: HEAD points at a stored commit, every
commit's tree is stored, every tree entry's blob id is stored, and the
content-addressed tree arena has no duplicates (maintained by
lookup-before-append writes). -/
def WF (r : Repo) : Prop :=
  r.head < r.commits.length ∧
  (∀ c ∈ r.commits, c.tree < r.trees.length) ∧
  (∀ t ∈ r.trees, ∀ e ∈ t, e.2.1 < r.blobs.length) ∧
  r.trees.Nodup

instance (r : Repo) : Decidable (WF r) := by
  unfold WF
  infer_instance

/-- Cache slot well-formedness relative to a repository: a stored commit
id refers to a commit that exists. -/
def CacheWF {Y : Type} (c : Cache Y) (r : Repo) : Prop :=
  match c with
  | none => True
  | some (cid, _) => cid < r.commits.length

instance {Y : Type} (c : Cache Y) (r : Repo) : Decidable (CacheWF c r) := by
  unfold CacheWF
  cases c with
  | none => exact inferInstanceAs (Decidable True)
  | some p => exact inferInstanceAs (Decidable (p.1 < r.commits.length))

/-! ### Derived notions used by the verification -/

/-- Number of index entries whose path is `p`. -/
def countPath (idx : Tree) (p : String) : Nat :=
  idx.countP (fun e => e.1 = p)

/-- Path keys of an index are pairwise distinct. -/
def KeysNodup (idx : Tree) : Prop := (idx.map (fun e => e.1)).Nodup

instance (idx : Tree) : Decidable (KeysNodup idx) := by
  unfold KeysNodup
  infer_instance

/-- The relation between the state before and after a successful write
verb: the commit log grew by exactly one commit, the old log is a
prefix, HEAD moved to the new commit, and the new commit's sole parent
is the old HEAD. -/
def AppendsOne (r r' : Repo) : Prop :=
  r'.commits.length = r.commits.length + 1 ∧
  r'.commits.take r.commits.length = r.commits ∧
  r'.head = r.commits.length ∧
  (headCommit r').parents = [r.head]

instance (r r' : Repo) : Decidable (AppendsOne r r') := by
  unfold AppendsOne
  infer_instance

/-- Linear history: no commit in the log has more than one parent. -/
def Linear (r : Repo) : Prop := ∀ c ∈ r.commits, c.parents.length ≤ 1

instance (r : Repo) : Decidable (Linear r) := by
  unfold Linear
  infer_instance

/-! ### Lock-acquisition traces

`delete_note`, the rename arm of `save_note`, `load_note` and
`download_file` all take `state.repo.lock().await` inside an inner
block that computes the existence check, drop that guard at the end of
the block, and take the lock a second time for the mutation (or blob
read).  `save_note`'s `Save` arm and the commit phase of `upload_file`
hold one guard for their whole body, and `upload_file` additionally
takes the lock once per uploaded blob.  The following event lists
record, in program order, the lock acquisitions/releases and the
store accesses of each handler. -/

/-- Events relevant to the lock discipline of a handler. -/
inductive Ev where
  | lock
  | unlock
  | checkExists
  | commitHead
  | readBlob
  | writeBlob
deriving DecidableEq

/-- Lock events of `load_note` (main.rs 279-314): one locked section
for the index lookup, and if the path was found, a second locked
section for the blob read. -/
def loadTrace (found : Bool) : List Ev :=
  [.lock, .checkExists, .unlock] ++ (if found then [.lock, .readBlob, .unlock] else [])

/-- Lock events of the `Save` arm of `save_note` (main.rs 321-361):
one locked section covering blob write and commit. -/
def saveTrace : List Ev := [.lock, .writeBlob, .commitHead, .unlock]

/-- Lock events of the `Rename` arm of `save_note` (main.rs 362-408):
a locked existence check, then — when found — a second locked section
for the commit. -/
def renameTrace (found : Bool) : List Ev :=
  [.lock, .checkExists, .unlock] ++ (if found then [.lock, .commitHead, .unlock] else [])

/-- Lock events of `delete_note` (main.rs 412-456): same two-section
shape as rename. -/
def deleteTrace (found : Bool) : List Ev :=
  [.lock, .checkExists, .unlock] ++ (if found then [.lock, .commitHead, .unlock] else [])

/-- Lock events of `upload_file` (main.rs 495-568): one locked section
per uploaded blob, then one locked section for the commit. -/
def uploadTrace : Nat → List Ev
  | 0 => [.lock, .commitHead, .unlock]
  | n + 1 => [.lock, .writeBlob, .unlock] ++ uploadTrace n

/-- Checks that, starting from lock depth `d`, every store access in
the trace happens with the lock held and no unlock occurs without a
matching lock. -/
def underLock : List Ev → Nat → Bool
  | [], _ => true
  | .lock :: tr, d => underLock tr (d + 1)
  | .unlock :: tr, d => decide (0 < d) && underLock tr (d - 1)
  | _ :: tr, d => decide (0 < d) && underLock tr d

/-- The claim-level property: the lock is never released between an
existence check and a later commit in the same handler trace. -/
def NoReleaseBetweenCheckAndCommit (tr : List Ev) : Prop :=
  ∀ (i j k : Nat), i < k → k < j →
    tr[i]? = some Ev.checkExists → tr[j]? = some Ev.commitHead →
    tr[k]? ≠ some Ev.unlock

/-! ### Sample instances used by witnesses -/

/-- The byte string of an ASCII string. -/
def strBytes (s : String) : Bytes := s.data.map Char.toNat

/-- A sample stand-in for `std::str::from_utf8`: accepts exactly the
ASCII byte strings. -/
def sampleDecode (bs : Bytes) : Option String :=
  if bs.all (fun b => b < 128) then some (String.mk (bs.map Char.ofNat)) else none

/-- A sample stand-in for `serde_yaml::from_str`, with `Bool` playing
the role of parsed YAML documents: rejects the empty document. -/
def sampleParse (s : String) : Except String Bool :=
  if s = "" then .error "empty document" else .ok true

/-- Content consisting of the opening front-matter delimiter
immediately followed by a closing delimiter line: an empty metadata
block.  The closing-window scan finds its window at offset 3,
overlapping the opening delimiter. -/
def cexBytes : Bytes := strBytes "---\n---\n"

/-- Content whose front-matter block is the single byte 255, which is
not valid UTF-8. -/
def nonUtf8Bytes : Bytes := [45, 45, 45, 10, 255, 10, 45, 45, 45, 10]

/-- A repository holding one initial commit with an empty tree. -/
def emptyRepo : Repo := ⟨[], [[]], [⟨0, [], "init"⟩], 0⟩

/-- `emptyRepo` after saving one note `n.md` with content `hi`. -/
def repo1 : Repo := saveNote emptyRepo "n.md" (strBytes "hi") "c"

/-! ### Basic lemmas about the arenas and `commitWith` -/

theorem idxOf_lt_length {α : Type} [DecidableEq α] {l : List α} {x : α} {i : Nat}
    (h : idxOf l x = some i) : i < l.length := by
  induction l generalizing i with
  | nil => simp [idxOf] at h
  | cons y ys ih =>
    by_cases hy : y = x
    · simp [idxOf, hy] at h
      simp [List.length_cons]
      omega
    · simp [idxOf, hy] at h
      obtain ⟨j, hj, rfl⟩ := h
      have := ih hj
      simp [List.length_cons]
      omega

theorem idxOf_get {α : Type} [DecidableEq α] {l : List α} {x : α} {i : Nat}
    (h : idxOf l x = some i) : l[i]? = some x := by
  induction l generalizing i with
  | nil => simp [idxOf] at h
  | cons y ys ih =>
    by_cases hy : y = x
    · simp [idxOf, hy] at h
      subst h
      simp [hy]
    · simp [idxOf, hy] at h
      obtain ⟨j, hj, rfl⟩ := h
      simpa using ih hj

theorem idxOf_of_nodup {α : Type} [DecidableEq α] {l : List α} {x : α} {i : Nat}
    (hn : l.Nodup) (h : l[i]? = some x) : idxOf l x = some i := by
  induction l generalizing i with
  | nil => simp at h
  | cons y ys ih =>
    cases i with
    | zero =>
      simp at h
      simp [idxOf, h]
    | succ j =>
      simp at h
      have hx : x ∈ ys := List.get?_mem (by rw [List.get?_eq_getElem?]; exact h)
      have hy : ¬ (y = x) := by
        rintro rfl
        exact (List.nodup_cons.mp hn).1 hx
      simp [idxOf, hy, ih (List.nodup_cons.mp hn).2 h]

theorem getD_append_length {α : Type} [Inhabited α] (l : List α) (x : α) :
    (l ++ [x]).getD l.length default = x := by
  induction l with
  | nil => rfl
  | cons y ys ih => simpa using ih

theorem putBlob_get (bs : List Bytes) (c : Bytes) :
    (putBlob bs c).2[(putBlob bs c).1]? = some c := by
  unfold putBlob
  cases h : idxOf bs c with
  | none => simp
  | some i => simpa using idxOf_get h

theorem putTree_get (ts : List Tree) (t : Tree) :
    (putTree ts t).2.getD (putTree ts t).1 [] = t := by
  unfold putTree
  cases h : idxOf ts t with
  | none =>
    simpa using getD_append_length (α := Tree) ts t
  | some i =>
    simp only
    have hg := idxOf_get h
    simp [List.getD_eq_getElem?_getD, hg]

theorem commitWith_blobs (r : Repo) (idx : Tree) (m : String) :
    (commitWith r idx m).blobs = r.blobs := rfl

theorem commitWith_head (r : Repo) (idx : Tree) (m : String) :
    (commitWith r idx m).head = r.commits.length := rfl

theorem commitWith_commits (r : Repo) (idx : Tree) (m : String) :
    (commitWith r idx m).commits =
      r.commits ++ [⟨(putTree r.trees idx).1, [r.head], m⟩] := rfl

theorem headCommit_commitWith (r : Repo) (idx : Tree) (m : String) :
    headCommit (commitWith r idx m) = ⟨(putTree r.trees idx).1, [r.head], m⟩ := by
  unfold headCommit
  rw [commitWith_commits, commitWith_head]
  exact getD_append_length _ _

theorem headIndex_commitWith (r : Repo) (idx : Tree) (m : String) :
    headIndex (commitWith r idx m) = idx := by
  unfold headIndex
  rw [headCommit_commitWith]
  exact putTree_get r.trees idx

/-! ### Lemmas about index operations -/

theorem findPath_indexRemove_self (idx : Tree) (p : String) :
    findPath (indexRemove idx p) p = none := by
  unfold findPath indexRemove
  rw [List.find?_eq_none]
  intro e he
  have := List.of_mem_filter he
  simpa using this

theorem findPath_filter_of_ne (idx : Tree) (p q : String) (h : ¬ (p = q)) :
    findPath (idx.filter (fun x => ¬ (x.1 = q))) p = findPath idx p := by
  induction idx with
  | nil => rfl
  | cons e es ih =>
    by_cases he : e.1 = q
    · have hep : ¬ (e.1 = p) := by
        rintro rfl
        exact h he
      rw [List.filter_cons, if_neg (by simpa using he)]
      rw [ih]
      unfold findPath
      rw [List.find?_cons_of_neg _ (by simpa using hep)]
    · rw [List.filter_cons, if_pos (by simpa using he)]
      by_cases hep : e.1 = p
      · unfold findPath
        rw [List.find?_cons_of_pos _ (by simpa using hep),
          List.find?_cons_of_pos _ (by simpa using hep)]
      · unfold findPath
        rw [List.find?_cons_of_neg _ (by simpa using hep),
          List.find?_cons_of_neg _ (by simpa using hep)]
        exact ih

theorem findPath_indexRemove_of_ne (idx : Tree) (p q : String) (h : ¬ (p = q)) :
    findPath (indexRemove idx q) p = findPath idx p :=
  findPath_filter_of_ne idx p q h

theorem findPath_indexAdd_self (idx : Tree) (e : Entry) :
    findPath (indexAdd idx e) e.1 = some e := by
  unfold findPath indexAdd
  rw [List.find?_append]
  have h1 : (idx.filter (fun x => ¬ (x.1 = e.1))).find? (fun x => x.1 = e.1) = none := by
    rw [List.find?_eq_none]
    intro a ha
    have := List.of_mem_filter ha
    simpa using this
  unfold findPath at h1
  rw [h1]
  simp

theorem findPath_indexAdd_of_ne (idx : Tree) (e : Entry) (p : String) (h : ¬ (p = e.1)) :
    findPath (indexAdd idx e) p = findPath idx p := by
  unfold indexAdd findPath
  rw [List.find?_append]
  have h2 := findPath_filter_of_ne idx p e.1 h
  unfold findPath at h2
  rw [h2]
  have h3 : List.find? (fun x => decide (x.1 = p)) [e] = none := by
    rw [List.find?_eq_none]
    intro a ha
    simp at ha
    subst ha
    simpa using fun hh => h hh.symm
  rw [h3]
  cases idx.find? (fun x => decide (x.1 = p)) <;> rfl

theorem countPath_indexAdd_self (idx : Tree) (e : Entry) :
    countPath (indexAdd idx e) e.1 = 1 := by
  unfold countPath indexAdd
  rw [List.countP_append]
  have h1 : (idx.filter (fun x => ¬ (x.1 = e.1))).countP (fun x => x.1 = e.1) = 0 := by
    rw [List.countP_eq_zero]
    intro a ha
    have := List.of_mem_filter ha
    simpa using this
  rw [h1]
  simp

theorem countPath_indexAdd_of_ne (idx : Tree) (e : Entry) (p : String) (h : ¬ (p = e.1)) :
    countPath (indexAdd idx e) p = countPath idx p := by
  unfold countPath indexAdd
  rw [List.countP_append]
  have h2 : List.countP (fun x => decide (x.1 = p)) [e] = 0 := by
    simp
    intro hh
    exact h hh.symm
  rw [h2, Nat.add_zero]
  induction idx with
  | nil => rfl
  | cons a as ih =>
    by_cases ha : a.1 = e.1
    · have hap : ¬ (a.1 = p) := by
        rintro rfl
        exact h ha
      rw [List.filter_cons, if_neg (by simpa using ha)]
      rw [ih, List.countP_cons_of_neg _ _ (by simpa using hap)]
    · rw [List.filter_cons, if_pos (by simpa using ha)]
      rw [List.countP_cons, List.countP_cons, ih]

theorem keysNodup_indexAdd (idx : Tree) (e : Entry) (h : KeysNodup idx) :
    KeysNodup (indexAdd idx e) := by
  unfold KeysNodup indexAdd at *
  rw [List.map_append, List.nodup_append]
  refine ⟨(List.Sublist.map _ (List.filter_sublist idx)).nodup h, by simp, ?_⟩
  intro a ha
  simp only [List.map_cons, List.map_nil, List.mem_singleton]
  rintro rfl
  simp only [List.mem_map] at ha
  obtain ⟨x, hx, hxa⟩ := ha
  have := List.of_mem_filter hx
  simp at this
  exact this hxa

theorem keysNodup_indexRemove (idx : Tree) (p : String) (h : KeysNodup idx) :
    KeysNodup (indexRemove idx p) :=
  (List.Sublist.map _ (List.filter_sublist idx)).nodup h

/-! ### The one-commit-per-write shape -/

theorem appendsOne_commitWith (r r1 : Repo) (idx : Tree) (m : String)
    (hc : r1.commits = r.commits) (hh : r1.head = r.head) :
    AppendsOne r (commitWith r1 idx m) := by
  refine ⟨?_, ?_, ?_, ?_⟩
  · rw [commitWith_commits, hc]
    simp
  · rw [commitWith_commits, hc]
    exact List.take_left _ _
  · rw [commitWith_head, hc]
  · rw [headCommit_commitWith, hh]

theorem linear_commitWith (r : Repo) (idx : Tree) (m : String) (h : Linear r) :
    Linear (commitWith r idx m) := by
  intro c hcm
  rw [commitWith_commits] at hcm
  rcases List.mem_append.mp hcm with hold | hnew
  · exact h c hold
  · simp at hnew
    subst hnew
    simp

/-! ### Inversion of successful rename and delete -/

theorem renameNote_ok (r r' : Repo) (f t : String)
    (h : renameNote r f t = (RRes.ok, r')) :
    ∃ e, findPath (headIndex r) f = some e ∧
      r' = commitWith r (indexAdd (indexRemove (headIndex r) f) (t, e.2.1, e.2.2))
        ("Rename " ++ f ++ " to " ++ t) := by
  unfold renameNote at h
  cases hf : findPath (headIndex r) f with
  | none =>
    rw [hf] at h
    simp at h
  | some e =>
    rw [hf] at h
    simp at h
    exact ⟨e, rfl, h.symm⟩

theorem deleteNote_ok (r r' : Repo) (p : String)
    (h : deleteNote r p = (RRes.ok, r')) :
    ∃ e, findPath (headIndex r) p = some e ∧
      r' = commitWith r (indexRemove (headIndex r) p) ("Delete " ++ p) := by
  unfold deleteNote at h
  cases hf : findPath (headIndex r) p with
  | none =>
    rw [hf] at h
    simp at h
  | some e =>
    rw [hf] at h
    simp at h
    exact ⟨e, rfl, h.symm⟩

/-- An invalid slot: the stored commit id refers to an existing commit
of `r`, while the other state's HEAD is the about-to-be-created commit
id `r.commits.length`. -/
theorem cachedGet_of_new_head {Y : Type} (c : Cache Y) (r r' : Repo)
    (hwf : CacheWF c r) (hh : r'.head = r.commits.length) :
    cachedGet c r' = none := by
  cases c with
  | none => rfl
  | some cd =>
    unfold CacheWF at hwf
    unfold cachedGet
    rw [hh]
    cases cd with
    | mk cid d =>
      simp only
      rw [if_neg]
      omega

/-! ### The shape of the snapshot after each write verb -/

theorem headIndex_saveNote (r : Repo) (p : String) (c : Bytes) (m : String) :
    headIndex (saveNote r p c m) =
      indexAdd (headIndex r) (p, (putBlob r.blobs c).1, regularMode) := by
  unfold saveNote
  rw [headIndex_commitWith]
  rfl

theorem saveNote_blobs (r : Repo) (p : String) (c : Bytes) (m : String) :
    (saveNote r p c m).blobs = (putBlob r.blobs c).2 := rfl

/-- Every index entry whose blob resolves and whose front matter scan
does not panic contributes its listing entry to a successfully computed
listing. -/
theorem listingOf_mem {Y : Type} (dec : Bytes → Option String)
    (par : String → Except String Y) (blobs : List Bytes) (idx : Tree)
    (es : List (ListEntry Y)) (e : Entry) (content : Bytes) (md : Option (MetaVal Y))
    (hl : listingOf dec par blobs idx = some es) (he : e ∈ idx)
    (hb : blobs[e.2.1]? = some content)
    (hm : getMetadata dec par content = some md) :
    ListEntry.mk e.1 md ∈ es := by
  induction idx generalizing es with
  | nil => simp at he
  | cons a as ih =>
    unfold listingOf at hl
    split at hl
    · exact Option.noConfusion hl
    rename_i ca hba
    split at hl
    · exact Option.noConfusion hl
    rename_i mda hma
    split at hl
    · exact Option.noConfusion hl
    rename_i rest hrest
    injection hl with hl
    subst hl
    rcases List.mem_cons.mp he with rfl | hmem
    · rw [hba] at hb
      injection hb with hb
      subst hb
      rw [hma] at hm
      injection hm with hm
      subst hm
      exact List.mem_cons_self _ _
    · exact List.mem_cons_of_mem _ (ih _ hrest hmem)

/-- The filenames recorded by the blob-writing loop of `upload_file`
are the uploaded filenames, in order. -/
theorem uploadStep_fst (files : List (String × Bytes)) (acc : List (String × Nat))
    (bs : List Bytes) :
    (files.foldl uploadStep (acc, bs)).1.map Prod.fst =
      acc.map Prod.fst ++ files.map Prod.fst := by
  induction files generalizing acc bs with
  | nil => simp
  | cons f fs ih =>
    rw [List.foldl_cons]
    have hstep : uploadStep (acc, bs) f =
        (acc ++ [(f.1, (putBlob bs f.2).1)], (putBlob bs f.2).2) := rfl
    rw [hstep, ih]
    simp

theorem countPath_uploadAdd_fold (l : List (String × Nat)) (idx : Tree) (p : String) :
    countPath (l.foldl uploadAdd idx) p =
      if p ∈ l.map Prod.fst then 1 else countPath idx p := by
  induction l generalizing idx with
  | nil => simp
  | cons pr l' ih =>
    rw [List.foldl_cons, ih]
    by_cases hmem : p ∈ l'.map Prod.fst
    · rw [if_pos hmem, if_pos (by simp [hmem])]
    · rw [if_neg hmem]
      by_cases hp : p = pr.1
      · subst hp
        rw [if_pos (by simp)]
        unfold uploadAdd
        exact countPath_indexAdd_self idx _
      · rw [if_neg (by simp [hmem, hp])]
        unfold uploadAdd
        exact countPath_indexAdd_of_ne idx _ p hp

theorem keysNodup_uploadAdd_fold (l : List (String × Nat)) (idx : Tree)
    (h : KeysNodup idx) : KeysNodup (l.foldl uploadAdd idx) := by
  induction l generalizing idx with
  | nil => exact h
  | cons pr l' ih =>
    rw [List.foldl_cons]
    exact ih _ (keysNodup_indexAdd _ _ h)

theorem headIndex_uploadFiles (r : Repo) (files : List (String × Bytes)) :
    headIndex (uploadFiles r files) =
      (files.foldl uploadStep ([], r.blobs)).1.foldl uploadAdd (headIndex r) := by
  unfold uploadFiles
  rw [headIndex_commitWith]
  rfl

/-! ### Claim C1 -/

/-- Claim C1: for every `rename_document(from, to)` and every
`delete_document(path)` whose named source path is absent from the
snapshot at current HEAD, the operation fails NotFound and creates no
commit — the returned state is exactly the state before the call, so
HEAD and the document listing are unchanged. -/
theorem absent_source_rejects_without_commit (r : Repo) (f t p : String)
    (hf : findPath (headIndex r) f = none) (hp : findPath (headIndex r) p = none) :
    renameNote r f t = (RRes.notFound, r) ∧
    deleteNote r p = (RRes.notFound, r) ∧
    (renameNote r f t).2.head = r.head ∧
    (deleteNote r p).2.head = r.head ∧
    headIndex (renameNote r f t).2 = headIndex r ∧
    headIndex (deleteNote r p).2 = headIndex r := by
  have h1 : renameNote r f t = (RRes.notFound, r) := by
    unfold renameNote
    rw [hf]
  have h2 : deleteNote r p = (RRes.notFound, r) := by
    unfold deleteNote
    rw [hp]
  exact ⟨h1, h2, by rw [h1], by rw [h2], by rw [h1], by rw [h2]⟩

/-- Witness for C1 at a concrete state: the empty repository holds no
paths, so rename and delete reject without touching the state. -/
theorem absent_source_rejects_without_commit_witness :
    renameNote emptyRepo "a.md" "b.md" = (RRes.notFound, emptyRepo) ∧
    deleteNote emptyRepo "c.md" = (RRes.notFound, emptyRepo) := by
  have h := absent_source_rejects_without_commit emptyRepo "a.md" "b.md" "c.md"
    (by decide) (by decide)
  exact ⟨h.1, h.2.1⟩

/-! ### Claim C2 -/

/-- Claim C2: every successful write verb — save, rename, delete,
upload — appends exactly one new commit whose sole parent is the HEAD
commit observed at the start of the transaction and advances HEAD to
it, and history stays linear (no commit ever gets more than one
parent). -/
theorem writes_append_single_commit :
    (∀ (r : Repo) (p : String) (c : Bytes) (m : String),
      AppendsOne r (saveNote r p c m) ∧ (Linear r → Linear (saveNote r p c m))) ∧
    (∀ (r : Repo) (f t : String) (r' : Repo), renameNote r f t = (RRes.ok, r') →
      AppendsOne r r' ∧ (Linear r → Linear r')) ∧
    (∀ (r : Repo) (p : String) (r' : Repo), deleteNote r p = (RRes.ok, r') →
      AppendsOne r r' ∧ (Linear r → Linear r')) ∧
    (∀ (r : Repo) (files : List (String × Bytes)),
      AppendsOne r (uploadFiles r files) ∧ (Linear r → Linear (uploadFiles r files))) := by
  have hlin : ∀ (r r1 : Repo) (idx : Tree) (m : String), r1.commits = r.commits →
      Linear r → Linear (commitWith r1 idx m) := by
    intro r r1 idx m hc hl
    apply linear_commitWith
    intro c hcm
    rw [hc] at hcm
    exact hl c hcm
  refine ⟨?_, ?_, ?_, ?_⟩
  · intro r p c m
    unfold saveNote
    exact ⟨appendsOne_commitWith r _ _ _ rfl rfl, hlin r _ _ _ rfl⟩
  · intro r f t r' h
    unfold renameNote at h
    cases hf : findPath (headIndex r) f with
    | none =>
      rw [hf] at h
      simp at h
    | some e =>
      rw [hf] at h
      simp at h
      rw [← h]
      exact ⟨appendsOne_commitWith r r _ _ rfl rfl, hlin r r _ _ rfl⟩
  · intro r p r' h
    unfold deleteNote at h
    cases hf : findPath (headIndex r) p with
    | none =>
      rw [hf] at h
      simp at h
    | some e =>
      rw [hf] at h
      simp at h
      rw [← h]
      exact ⟨appendsOne_commitWith r r _ _ rfl rfl, hlin r r _ _ rfl⟩
  · intro r files
    unfold uploadFiles
    exact ⟨appendsOne_commitWith r _ _ _ rfl rfl, hlin r _ _ _ rfl⟩

/-- Witness for C2 at a concrete state: renaming the one note of
`repo1` appends one commit with the old HEAD as sole parent, and the
history stays linear. -/
theorem writes_append_single_commit_witness :
    AppendsOne repo1 (renameNote repo1 "n.md" "m.md").2 ∧
    Linear (renameNote repo1 "n.md" "m.md").2 := by
  have h := writes_append_single_commit.2.1 repo1 "n.md" "m.md"
    (renameNote repo1 "n.md" "m.md").2 (by decide)
  exact ⟨h.1, h.2 (by decide)⟩

/-! ### Claim C3 -/

/-- Claim C3: the cache slot is valid iff its stored commit id equals
the current HEAD commit id; `list_notes` serves the cached listing
exactly when the slot is valid and otherwise computes the listing and
stores it tagged with HEAD's commit id; and after any successful write
verb (which moves HEAD to a freshly created commit) the slot is never
valid, so the listing is recomputed from the new snapshot rather than
served stale. -/
theorem cache_coherence :
    (∀ {Y : Type} (c : Cache Y) (r : Repo) (d : List (ListEntry Y)),
      cachedGet c r = some d ↔ c = some (r.head, d)) ∧
    (∀ {Y : Type} (dec : Bytes → Option String) (par : String → Except String Y)
      (r : Repo) (c : Cache Y) (d : List (ListEntry Y)),
      cachedGet c r = some d → listNotes dec par r c = some (d, c)) ∧
    (∀ {Y : Type} (dec : Bytes → Option String) (par : String → Except String Y)
      (r : Repo) (c : Cache Y) (es : List (ListEntry Y)),
      cachedGet c r = none → computeListing dec par r = some es →
      listNotes dec par r c = some (es, some (r.head, es))) ∧
    (∀ {Y : Type} (c : Cache Y) (r : Repo), CacheWF c r →
      (∀ (p : String) (cb : Bytes) (m : String),
        cachedGet c (saveNote r p cb m) = none) ∧
      (∀ (f t : String) (r' : Repo), renameNote r f t = (RRes.ok, r') →
        cachedGet c r' = none) ∧
      (∀ (p : String) (r' : Repo), deleteNote r p = (RRes.ok, r') →
        cachedGet c r' = none) ∧
      (∀ files, cachedGet c (uploadFiles r files) = none)) := by
  refine ⟨?_, ?_, ?_, ?_⟩
  · intro Y c r d
    cases c with
    | none => simp [cachedGet]
    | some cd =>
      cases cd with
      | mk cid d' =>
        by_cases hc : cid = r.head
        · subst hc
          unfold cachedGet
          simp
          constructor
          · rintro rfl
            rfl
          · intro hh
            injection hh with h2
            injection h2 with ha hb
        · constructor
          · intro hh
            simp [cachedGet, hc] at hh
          · intro hh
            injection hh with h2
            injection h2 with ha hb
            exact absurd ha hc
  · intro Y dec par r c d h
    unfold listNotes
    rw [h]
  · intro Y dec par r c es h1 h2
    unfold listNotes
    rw [h1, h2]
    rfl
  · intro Y c r hwf
    refine ⟨?_, ?_, ?_, ?_⟩
    · intro p cb m
      exact cachedGet_of_new_head c r _ hwf rfl
    · intro f t r' h
      obtain ⟨e, -, rfl⟩ := renameNote_ok r r' f t h
      exact cachedGet_of_new_head c r _ hwf rfl
    · intro p r' h
      obtain ⟨e, -, rfl⟩ := deleteNote_ok r r' p h
      exact cachedGet_of_new_head c r _ hwf rfl
    · intro files
      exact cachedGet_of_new_head c r _ hwf rfl

/-- Witness for C3 at a concrete state: a slot tagged with the initial
commit of `repo1` is no longer valid after a save, so it cannot be
served. -/
theorem cache_coherence_witness :
    cachedGet (some (0, ([] : List (ListEntry Bool)))) (saveNote repo1 "x.md" [] "m")
      = none := by
  exact (cache_coherence.2.2.2 (some (0, [])) repo1 (by decide)).1 "x.md" [] "m"

/-! ### Claim C6 -/

theorem findPath_indexAdd_triple (idx : Tree) (p : String) (o mo : Nat) :
    findPath (indexAdd idx (p, o, mo)) p = some (p, o, mo) :=
  findPath_indexAdd_self idx (p, o, mo)

/-- The content of the round-trip test: front matter with one mapping
`title: X` followed by a body. -/
def fmContent : Bytes := strBytes ("---\ntitle: X\n---\nbody")

/-- The front-matter scan of `fmContent`: the opening delimiter is
present, the closing window sits at byte 12, and the block strictly
between the delimiters is `title: X`; with any UTF-8 decoder and YAML
parser that accept that block, the metadata is the parsed document. -/
theorem getMetadata_fmContent {Y : Type} (dec : Bytes → Option String)
    (par : String → Except String Y) (v : Y)
    (hdec : dec (strBytes "title: X") = some "title: X")
    (hpar : par "title: X" = Except.ok v) :
    getMetadata dec par fmContent = some (some (MetaVal.parsed v)) := by
  have h1 : fmContent.take 4 = openDelim := by decide
  have h2 : findWin fmContent = some 12 := by decide
  have h3 : (fmContent.drop 4).take (12 - 4) = strBytes "title: X" := by decide
  simp [getMetadata, metaOfBlock, h1, h2, h3, hdec, hpar]

/-- Claim C6: saving a document and loading it back returns exactly the
saved content byte-for-byte, for every path, content and prior state;
and after saving `a/b.md` with front matter `title: X`, any
successfully computed listing contains the entry for `a/b.md` with the
parsed metadata. -/
theorem save_load_roundtrip :
    (∀ (r : Repo) (p : String) (c : Bytes) (m : String),
      loadNote (saveNote r p c m) p = some c) ∧
    (∀ {Y : Type} (dec : Bytes → Option String) (par : String → Except String Y)
      (r : Repo) (m : String) (v : Y) (es : List (ListEntry Y)),
      dec (strBytes "title: X") = some "title: X" →
      par "title: X" = Except.ok v →
      computeListing dec par (saveNote r "a/b.md" fmContent m) = some es →
      ListEntry.mk "a/b.md" (some (MetaVal.parsed v)) ∈ es) := by
  constructor
  · intro r p c m
    unfold loadNote
    rw [headIndex_saveNote, findPath_indexAdd_triple]
    show (saveNote r p c m).blobs[(putBlob r.blobs c).1]? = some c
    rw [saveNote_blobs]
    exact putBlob_get _ _
  · intro Y dec par r m v es hdec hpar hcl
    unfold computeListing at hcl
    have hmem : (("a/b.md", (putBlob r.blobs fmContent).1, regularMode) : Entry) ∈
        headIndex (saveNote r "a/b.md" fmContent m) := by
      rw [headIndex_saveNote]
      unfold indexAdd
      simp
    have hb : (saveNote r "a/b.md" fmContent m).blobs[(putBlob r.blobs fmContent).1]?
        = some fmContent := by
      rw [saveNote_blobs]
      exact putBlob_get _ _
    exact listingOf_mem dec par _ _ es _ fmContent _ hcl hmem hb
      (getMetadata_fmContent dec par v hdec hpar)

/-- Witness for C6 at a concrete state, with the sample decoder and
parser standing in for the external UTF-8 and YAML libraries. -/
theorem save_load_roundtrip_witness :
    loadNote (saveNote emptyRepo "a/b.md" fmContent "m") "a/b.md" = some fmContent ∧
    ListEntry.mk "a/b.md" (some (MetaVal.parsed true)) ∈
      [ListEntry.mk "a/b.md" (some (MetaVal.parsed true))] :=
  ⟨save_load_roundtrip.1 emptyRepo "a/b.md" fmContent "m",
   save_load_roundtrip.2 sampleDecode sampleParse emptyRepo "m" true _
     (by decide) (by rfl) (by decide)⟩

/-! ### Claim C7 -/

/-- Counterexample to C7 as stated: the claim quantifies over every
existing source path and every target, but renaming a path onto itself
succeeds and leaves the document in place, so afterwards loading the
source path returns the content instead of failing NotFound. -/
theorem rename_self_keeps_source :
    renameNote repo1 "n.md" "n.md" = (RRes.ok, (renameNote repo1 "n.md" "n.md").2) ∧
    loadNote (renameNote repo1 "n.md" "n.md").2 "n.md" = some (strBytes "hi") := by
  decide

/-- Claim C7 (amended: the source and target paths must differ): a
successful rename of an existing `path_from` to a distinct `path_to`
re-binds the found entry's blob id and mode under `path_to`, removes
`path_from`, and afterwards loading `path_from` fails NotFound while
loading `path_to` returns exactly what loading `path_from` returned
before the rename. -/
theorem rename_moves_content (r : Repo) (f t : String) (e : Entry)
    (hne : ¬ (f = t)) (hf : findPath (headIndex r) f = some e) :
    renameNote r f t =
      (RRes.ok, commitWith r (indexAdd (indexRemove (headIndex r) f) (t, e.2.1, e.2.2))
        ("Rename " ++ f ++ " to " ++ t)) ∧
    findPath (headIndex (renameNote r f t).2) t = some (t, e.2.1, e.2.2) ∧
    loadNote (renameNote r f t).2 f = none ∧
    loadNote (renameNote r f t).2 t = loadNote r f := by
  have h1 : renameNote r f t =
      (RRes.ok, commitWith r (indexAdd (indexRemove (headIndex r) f) (t, e.2.1, e.2.2))
        ("Rename " ++ f ++ " to " ++ t)) := by
    unfold renameNote
    rw [hf]
  have hidx : headIndex (renameNote r f t).2 =
      indexAdd (indexRemove (headIndex r) f) (t, e.2.1, e.2.2) := by
    rw [h1, headIndex_commitWith]
  have h2 : findPath (headIndex (renameNote r f t).2) t = some (t, e.2.1, e.2.2) := by
    rw [hidx]
    exact findPath_indexAdd_triple _ _ _ _
  refine ⟨h1, h2, ?_, ?_⟩
  · unfold loadNote
    rw [hidx, findPath_indexAdd_of_ne _ _ _ hne, findPath_indexRemove_self]
  · unfold loadNote
    rw [h2, hf]
    show (renameNote r f t).2.blobs[e.2.1]? = r.blobs[e.2.1]?
    rw [h1]
    rfl

/-- Witness for C7 (amended) at a concrete state: renaming the note of
`repo1` to a fresh name moves the content. -/
theorem rename_moves_content_witness :
    loadNote (renameNote repo1 "n.md" "m.md").2 "n.md" = none ∧
    loadNote (renameNote repo1 "n.md" "m.md").2 "m.md" = loadNote repo1 "n.md" := by
  have h := rename_moves_content repo1 "n.md" "m.md" ("n.md", 0, regularMode)
    (by decide) (by decide)
  exact ⟨h.2.2.1, h.2.2.2⟩

/-! ### Claim C8 -/

/-- Claim C8: path keys stay unique.  Adding a path that already exists
— saving to an existing path, renaming onto an existing target, or
uploading a duplicate filename — overwrites instead of duplicating, so
the resulting snapshot holds exactly one entry for that path; and every
write verb preserves distinctness of the snapshot's path keys. -/
theorem path_keys_unique :
    (∀ (r : Repo) (p : String) (c : Bytes) (m : String),
      countPath (headIndex (saveNote r p c m)) p = 1) ∧
    (∀ (r : Repo) (f t : String) (r' : Repo), renameNote r f t = (RRes.ok, r') →
      countPath (headIndex r') t = 1) ∧
    (∀ (r : Repo) (files : List (String × Bytes)) (p : String),
      p ∈ files.map Prod.fst → countPath (headIndex (uploadFiles r files)) p = 1) ∧
    (∀ (r : Repo) (p : String) (c : Bytes) (m : String), KeysNodup (headIndex r) →
      KeysNodup (headIndex (saveNote r p c m))) ∧
    (∀ (r : Repo) (f t : String) (r' : Repo), renameNote r f t = (RRes.ok, r') →
      KeysNodup (headIndex r) → KeysNodup (headIndex r')) ∧
    (∀ (r : Repo) (p : String) (r' : Repo), deleteNote r p = (RRes.ok, r') →
      KeysNodup (headIndex r) → KeysNodup (headIndex r')) ∧
    (∀ (r : Repo) (files : List (String × Bytes)), KeysNodup (headIndex r) →
      KeysNodup (headIndex (uploadFiles r files))) := by
  refine ⟨?_, ?_, ?_, ?_, ?_, ?_, ?_⟩
  · intro r p c m
    rw [headIndex_saveNote]
    exact countPath_indexAdd_self _ _
  · intro r f t r' h
    obtain ⟨e, -, rfl⟩ := renameNote_ok r r' f t h
    rw [headIndex_commitWith]
    exact countPath_indexAdd_self _ _
  · intro r files p hp
    rw [headIndex_uploadFiles, countPath_uploadAdd_fold]
    rw [if_pos]
    rw [uploadStep_fst]
    simpa using hp
  · intro r p c m h
    rw [headIndex_saveNote]
    exact keysNodup_indexAdd _ _ h
  · intro r f t r' hok h
    obtain ⟨e, -, rfl⟩ := renameNote_ok r r' f t hok
    rw [headIndex_commitWith]
    exact keysNodup_indexAdd _ _ (keysNodup_indexRemove _ _ h)
  · intro r p r' hok h
    obtain ⟨e, -, rfl⟩ := deleteNote_ok r r' p hok
    rw [headIndex_commitWith]
    exact keysNodup_indexRemove _ _ h
  · intro r files h
    rw [headIndex_uploadFiles]
    exact keysNodup_uploadAdd_fold _ _ h

/-- Witness for C8 at a concrete state: uploading the same filename
twice yields exactly one entry for it. -/
theorem path_keys_unique_witness :
    countPath (headIndex (uploadFiles repo1 [("f.md", []), ("f.md", strBytes "x")]))
      "f.md" = 1 :=
  path_keys_unique.2.2.1 repo1 [("f.md", []), ("f.md", strBytes "x")] "f.md" (by decide)

/-! ### Claim C4 -/

/-- Counterexample to C4 as stated.  For `cexBytes` the opening
delimiter is present and a closing window is found (at offset 3,
overlapping the opening delimiter), so by the claim's case analysis the
metadata should be determined and the document should appear in the
listing; instead the handler panics (the slice from 4 to 3 is out of
bounds) and no listing entry is produced at all.  Moreover, for a block
that fails UTF-8 validation the claim demands the one-key error
structure, but the metadata is none. -/
theorem front_matter_case_analysis_cex :
    cexBytes.take 4 = openDelim ∧
    findWin cexBytes = some 3 ∧
    getMetadata sampleDecode sampleParse cexBytes = none ∧
    getMetadata sampleDecode sampleParse nonUtf8Bytes = some none := by
  decide

/-- Claim C4 (amended): the per-document metadata case analysis, with
the two cases the code adds.  No leading delimiter: metadata none.
Leading delimiter but no closing window: none.  Closing window
overlapping the opening delimiter (offset below 4): the handler panics
and produces no listing entry.  Otherwise, block failing UTF-8
validation: none; block decoding and parsing: the parsed structure;
block decoding but failing to parse: the one-key error structure with
the parser's message.  In all non-panicking cases the document appears
in the listing. -/
theorem front_matter_case_analysis {Y : Type} (dec : Bytes → Option String)
    (par : String → Except String Y) (c : Bytes) :
    (¬ (c.take 4 = openDelim) → getMetadata dec par c = some none) ∧
    (c.take 4 = openDelim → findWin c = none → getMetadata dec par c = some none) ∧
    (∀ (j : Nat), c.take 4 = openDelim → findWin c = some j → j < 4 →
      getMetadata dec par c = none) ∧
    (∀ (j : Nat), c.take 4 = openDelim → findWin c = some j → 4 ≤ j →
      dec ((c.drop 4).take (j - 4)) = none → getMetadata dec par c = some none) ∧
    (∀ (j : Nat) (s : String) (v : Y), c.take 4 = openDelim → findWin c = some j → 4 ≤ j →
      dec ((c.drop 4).take (j - 4)) = some s → par s = Except.ok v →
      getMetadata dec par c = some (some (MetaVal.parsed v))) ∧
    (∀ (j : Nat) (s msg : String), c.take 4 = openDelim → findWin c = some j → 4 ≤ j →
      dec ((c.drop 4).take (j - 4)) = some s → par s = Except.error msg →
      getMetadata dec par c = some (some (MetaVal.errObj msg))) := by
  refine ⟨?_, ?_, ?_, ?_, ?_, ?_⟩
  · intro h
    unfold getMetadata
    rw [if_neg h]
  · intro h1 h2
    unfold getMetadata
    rw [if_pos h1, h2]
  · intro j h1 h2 h3
    unfold getMetadata
    rw [if_pos h1, h2]
    simp
    omega
  · intro j h1 h2 h3 h4
    unfold getMetadata
    rw [if_pos h1, h2]
    simp [h3, metaOfBlock, h4]
  · intro j s v h1 h2 h3 h4 h5
    unfold getMetadata
    rw [if_pos h1, h2]
    simp [h3, metaOfBlock, h4, h5]
  · intro j s msg h1 h2 h3 h4 h5
    unfold getMetadata
    rw [if_pos h1, h2]
    simp [h3, metaOfBlock, h4, h5]

/-- Witness for C4 (amended) at a concrete input: the round-trip
content decodes and parses, so its metadata is the parsed document. -/
theorem front_matter_case_analysis_witness :
    getMetadata sampleDecode sampleParse fmContent
      = some (some (MetaVal.parsed true)) :=
  (front_matter_case_analysis sampleDecode sampleParse fmContent).2.2.2.2.1
    12 "title: X" true (by decide) (by decide) (by decide) (by decide) (by rfl)

/-! ### Claim C5 -/

/-- Claim C5 is right and the code is wrong: the spec promises that the
front-matter parser is total and that an empty metadata block between
the two delimiters is handled, but on content consisting of the opening
delimiter followed directly by the closing `---` line the
closing-window scan (which starts at offset 0 and may overlap the
opening delimiter) returns offset 3, and the slice of the bytes from 4
to 3 panics, for every UTF-8 decoder and YAML parser.  A whole-listing
request over a snapshot containing such a document dies with it. -/
theorem empty_front_matter_panics {Y : Type} (dec : Bytes → Option String)
    (par : String → Except String Y) :
    findWin cexBytes = some 3 ∧
    getMetadata dec par cexBytes = none ∧
    listingOf dec par [cexBytes] [("note.md", 0, regularMode)] = none := by
  have h1 : cexBytes.take 4 = openDelim := by decide
  have h2 : findWin cexBytes = some 3 := by decide
  have h3 : getMetadata dec par cexBytes = none := by
    unfold getMetadata
    rw [if_pos h1, h2]
    simp
  refine ⟨h2, h3, ?_⟩
  unfold listingOf
  simp [h3]

/-- Witness for C5 with the sample decoder and parser standing in for
the external libraries: the panic branch is reached. -/
theorem empty_front_matter_panics_witness :
    getMetadata sampleDecode sampleParse cexBytes = none :=
  (empty_front_matter_panics sampleDecode sampleParse).2.1

/-! ### Claim C9 -/

/-- Counterexample to C9 as stated: in `delete_note` (and likewise the
rename arm of `save_note`) the repository lock is dropped at the end of
the block computing the existence check and re-acquired for the commit,
so there is a release point (index 2 of the trace) strictly between the
existence check (index 1) and the commit (index 4). -/
theorem delete_releases_lock_between_check_and_commit :
    ¬ (NoReleaseBetweenCheckAndCommit (deleteTrace true) ∧
       NoReleaseBetweenCheckAndCommit (renameTrace true)) := by
  intro h
  exact h.1 1 4 2 (by decide) (by decide) (by decide) (by decide) (by decide)

/-- Claim C9 (amended): every store access in every handler happens
with the lock held, and the `Save` arm of `save_note` performs its
whole transaction inside one continuous locked section; but the lock is
not held across whole operations in general: `delete_note` and the
rename arm release the lock after the existence check and re-acquire it
before the commit, and `upload_file` takes the lock once per uploaded
blob plus once for the commit. -/
theorem lock_discipline :
    underLock saveTrace 0 = true ∧
    (∀ b, underLock (loadTrace b) 0 = true) ∧
    (∀ b, underLock (renameTrace b) 0 = true) ∧
    (∀ b, underLock (deleteTrace b) 0 = true) ∧
    (∀ n, underLock (uploadTrace n) 0 = true) ∧
    NoReleaseBetweenCheckAndCommit saveTrace ∧
    ((deleteTrace true)[1]? = some Ev.checkExists ∧
      (deleteTrace true)[2]? = some Ev.unlock ∧
      (deleteTrace true)[4]? = some Ev.commitHead) ∧
    ((renameTrace true)[1]? = some Ev.checkExists ∧
      (renameTrace true)[2]? = some Ev.unlock ∧
      (renameTrace true)[4]? = some Ev.commitHead) ∧
    (∀ n, (uploadTrace n).count Ev.lock = n + 1) := by
  refine ⟨by decide, ?_, ?_, ?_, ?_, ?_, by decide, by decide, ?_⟩
  · intro b
    cases b <;> decide
  · intro b
    cases b <;> decide
  · intro b
    cases b <;> decide
  · intro n
    induction n with
    | zero => decide
    | succ k ih =>
      show underLock ([Ev.lock, Ev.writeBlob, Ev.unlock] ++ uploadTrace k) 0 = true
      simpa [underLock] using ih
  · intro i j k hik hkj hi hj
    exfalso
    rcases i with _ | _ | _ | _ | i <;> simp [saveTrace] at hi
  · intro n
    induction n with
    | zero => decide
    | succ k ih =>
      show ([Ev.lock, Ev.writeBlob, Ev.unlock] ++ uploadTrace k).count Ev.lock = k + 1 + 1
      rw [List.count_append, ih]
      have hone : List.count Ev.lock [Ev.lock, Ev.writeBlob, Ev.unlock] = 1 := by decide
      rw [hone]
      omega

/-- Witness for C9 (amended) at concrete traces: the two-section delete
trace keeps every access under the lock, and the upload trace for two
files takes the lock three times. -/
theorem lock_discipline_witness :
    underLock (deleteTrace true) 0 = true ∧ (uploadTrace 2).count Ev.lock = 2 + 1 :=
  ⟨lock_discipline.2.2.2.1 true, lock_discipline.2.2.2.2.2.2.2.2 2⟩

/-! ### Claim C10 -/

/-- Claim C10: uploading an empty list of files still creates and
publishes exactly one commit, with message `Upload 0 files` and the
same tree as its parent commit — the snapshot and blob store are
unchanged, but HEAD advances. -/
theorem upload_empty_commits (r : Repo) (hwf : WF r) :
    uploadFiles r [] = commitWith r (headIndex r) "Upload 0 files" ∧
    (uploadFiles r []).blobs = r.blobs ∧
    (uploadFiles r []).trees = r.trees ∧
    (headCommit (uploadFiles r [])).tree = (headCommit r).tree ∧
    (headCommit (uploadFiles r [])).message = "Upload 0 files" ∧
    AppendsOne r (uploadFiles r []) ∧
    headIndex (uploadFiles r []) = headIndex r ∧
    ¬ ((uploadFiles r []).head = r.head) := by
  have hmem : headCommit r ∈ r.commits := by
    have h1 : headCommit r = r.commits.get ⟨r.head, hwf.1⟩ := by
      unfold headCommit
      rw [List.getD_eq_getElem?_getD, List.getElem?_eq_getElem hwf.1]
      rfl
    rw [h1]
    exact List.get_mem _ _ hwf.1
  have htlt : (headCommit r).tree < r.trees.length := hwf.2.1 _ hmem
  have hget : r.trees[(headCommit r).tree]? = some (headIndex r) := by
    unfold headIndex
    rw [List.getD_eq_getElem?_getD, List.getElem?_eq_getElem htlt]
    rfl
  have hput : putTree r.trees (headIndex r) = ((headCommit r).tree, r.trees) := by
    unfold putTree
    rw [idxOf_of_nodup hwf.2.2.2 hget]
  have h0 : uploadFiles r [] = commitWith r (headIndex r) "Upload 0 files" := rfl
  refine ⟨h0, by rw [h0]; rfl, ?_, ?_, ?_, ?_, ?_, ?_⟩
  · rw [h0]
    show (putTree r.trees (headIndex r)).2 = r.trees
    rw [hput]
  · rw [h0, headCommit_commitWith, hput]
  · rw [h0, headCommit_commitWith]
  · rw [h0]
    exact appendsOne_commitWith r r _ _ rfl rfl
  · rw [h0]
    exact headIndex_commitWith r _ _
  · rw [h0, commitWith_head]
    have := hwf.1
    omega

/-- Witness for C10 at a concrete state. -/
theorem upload_empty_commits_witness :
    (headCommit (uploadFiles emptyRepo [])).message = "Upload 0 files" ∧
    headIndex (uploadFiles emptyRepo []) = headIndex emptyRepo ∧
    ¬ ((uploadFiles emptyRepo []).head = emptyRepo.head) := by
  have h := upload_empty_commits emptyRepo (by decide)
  exact ⟨h.2.2.2.2.1, h.2.2.2.2.2.2.1, h.2.2.2.2.2.2.2⟩

end Moried
